import Mathlib

/-!
Verification of the short-circuiting optional-value transform chain in
`src/kmake/src/kmake.cpp`.

The program defines a step function `half` returning `std::optional<int>`
and, in `main`, threads the optional value `std::optional{20}` through ten
`and_then(half)` calls (C++23 monadic `std::optional` interface).

C++ `%` on `int` is truncated remainder (`Int.tmod`) and C++ `/` is
truncated quotient (`Int.tdiv`); both appear as such in the embedding of
`half`.  The chain itself is embedded as a left fold of the `and_then`
combinator over a list of steps, generalised over the initial value and the
list of steps, with the concrete program being the instance of initial
value `20` and ten copies of `half`.
-/

/-- Embedding of the C++ function `half`: test `x % 2 == 0` with the C++
truncated remainder, and on success return the C++ truncated quotient
`x / 2`; otherwise return the empty optional. -/
def half (x : Int) : Option Int :=
  if x.tmod 2 = 0 then some (x.tdiv 2) else none

/-- A chain step, as in the source: a function from an `int` to an optional
`int`. -/
abbrev ChainStep := Int → Option Int

/-- Semantics of C++23 `std::optional<int>::and_then`: invoke the function
only when the optional holds a value, otherwise yield the empty optional
without invoking the function. -/
def and_then : Option Int → ChainStep → Option Int
  | some v, f => f v
  | none, _ => none

/-- The chain pattern of `main`, generalised over the initial value and the
list of steps: a left-to-right fold of `and_then` starting from an engaged
optional holding the initial value. -/
def run_chain (init : Int) (steps : List ChainStep) : Option Int :=
  steps.foldl and_then (some init)

/-- The literal chain computed in `main`: initial value `20` and ten
`and_then(half)` applications. -/
def mainChain : Option Int :=
  run_chain 20 (List.replicate 10 half)

/-- Trace of current optional values seen during evaluation of the chain:
the value before the first step, then the value after each successive
step.  Entry `j` is the current optional after `j` steps, equivalently
before step `j` (steps numbered from `0`). -/
def chainStates (cur : Option Int) : List ChainStep → List (Option Int)
  | [] => [cur]
  | f :: fs => cur :: chainStates (and_then cur f) fs

/-- Invocation record of a chain evaluation: one boolean per step, `true`
exactly when the step function is invoked, which by the semantics of
`and_then` happens exactly when the current optional holds a value at that
position. -/
def invoked (cur : Option Int) : List ChainStep → List Bool
  | [] => []
  | f :: fs =>
    match cur with
    | none => false :: invoked none fs
    | some v => true :: invoked (f v) fs

/-- Number of step-function invocations performed during evaluation of the
chain. -/
def countInvocations (cur : Option Int) (steps : List ChainStep) : Nat :=
  (invoked cur steps).count true

/-- Smallest value of the C++ type `int` (32-bit two's complement). -/
def int32Min : Int := -2147483648

/-- Largest value of the C++ type `int` (32-bit two's complement). -/
def int32Max : Int := 2147483647

/-- C++ signed remainder with its undefined-behaviour conditions made
explicit: `a % b` is undefined when `b = 0` or when `a = INT_MIN` and
`b = -1` (quotient overflow); otherwise it is the truncated remainder. -/
def cppRem (a b : Int) : Option Int :=
  if b = 0 then none
  else if a = int32Min ∧ b = -1 then none
  else some (a.tmod b)

/-- C++ signed division with its undefined-behaviour conditions made
explicit: `a / b` is undefined when `b = 0` or when `a = INT_MIN` and
`b = -1` (overflow); otherwise it is the truncated quotient. -/
def cppDiv (a b : Int) : Option Int :=
  if b = 0 then none
  else if a = int32Min ∧ b = -1 then none
  else some (a.tdiv b)

/-- Checked evaluation of `half` in which each C++ arithmetic operator may
signal undefined behaviour (`none` at the outer layer): first the parity
test `x % 2 == 0`, then on success the quotient `x / 2`. -/
def halfChecked (x : Int) : Option (Option Int) :=
  match cppRem x 2 with
  | none => none
  | some r => if r = 0 then (cppDiv x 2).map some else some none

/-- Relational semantics of chain evaluation, following the control flow of
the `and_then` cascade in `main`: a judgment relating the current optional
and the remaining steps to the final result and the per-step invocation
record. -/
inductive ChainEval : Option Int → List ChainStep → Option Int → List Bool → Prop where
  | nil (cur : Option Int) : ChainEval cur [] cur []
  | absent (f : ChainStep) (fs : List ChainStep) (r : Option Int) (bs : List Bool) :
      ChainEval none fs r bs → ChainEval none (f :: fs) r (false :: bs)
  | present (v : Int) (f : ChainStep) (fs : List ChainStep) (r : Option Int) (bs : List Bool) :
      ChainEval (f v) fs r bs → ChainEval (some v) (f :: fs) r (true :: bs)

/-- Folding `and_then` from an empty optional yields the empty optional. -/
theorem foldl_and_then_none : ∀ (fs : List ChainStep),
    List.foldl and_then none fs = none := by
  intro fs
  induction fs with
  | nil => rfl
  | cons f fs ih => simpa [and_then] using ih

/-- From an empty optional every later state is the empty optional. -/
theorem chainStates_none : ∀ (fs : List ChainStep),
    chainStates none fs = List.replicate (fs.length + 1) none := by
  intro fs
  induction fs with
  | nil => rfl
  | cons f fs ih => simp [chainStates, and_then, ih, List.replicate_succ]

/-- From an empty optional no step is ever invoked. -/
theorem invoked_none : ∀ (fs : List ChainStep),
    invoked none fs = List.replicate fs.length false := by
  intro fs
  induction fs with
  | nil => rfl
  | cons f fs ih => simp [invoked, ih, List.replicate_succ]

/-- The state trace has one more entry than there are steps. -/
theorem chainStates_length : ∀ (fs : List ChainStep) (cur : Option Int),
    (chainStates cur fs).length = fs.length + 1 := by
  intro fs
  induction fs with
  | nil => intro cur; rfl
  | cons f fs ih => intro cur; simp [chainStates, ih]

/-- The invocation record has exactly one entry per step. -/
theorem invoked_length : ∀ (fs : List ChainStep) (cur : Option Int),
    (invoked cur fs).length = fs.length := by
  intro fs
  induction fs with
  | nil => intro cur; rfl
  | cons f fs ih =>
    intro cur
    cases cur with
    | none => simp [invoked, ih]
    | some v => simp [invoked, ih]

/-- Reading inside a replicated list of empty optionals yields the empty
optional at every in-range index. -/
theorem getD_replicate_none : ∀ (n j : Nat), j < n →
    (List.replicate n (none : Option Int)).getD j (some 0) = none := by
  intro n
  induction n with
  | zero => intro j hj; omega
  | succ n ih =>
    intro j hj
    cases j with
    | zero => simp [List.replicate_succ]
    | succ j => simpa [List.replicate_succ] using ih j (by omega)

/-- Reading a replicated list of `false` flags yields `false` at every
index, in range or not. -/
theorem getD_replicate_false : ∀ (n j : Nat),
    (List.replicate n false).getD j false = false := by
  intro n
  induction n with
  | zero => intro j; simp
  | succ n ih =>
    intro j
    cases j with
    | zero => simp [List.replicate_succ]
    | succ j => simp [List.replicate_succ, ih j]

/-- Once the state trace holds the empty optional at some index, it holds
the empty optional at every later in-range index. -/
theorem states_absorb : ∀ (fs : List ChainStep) (cur : Option Int) (i j : Nat),
    i ≤ j → j < (chainStates cur fs).length →
    (chainStates cur fs).getD i (some 0) = none →
    (chainStates cur fs).getD j (some 0) = none := by
  intro fs
  induction fs with
  | nil =>
    intro cur i j hij hj hi
    simp [chainStates] at hj
    have hj0 : j = 0 := by omega
    have hi0 : i = 0 := by omega
    rw [hj0]
    rw [hi0] at hi
    exact hi
  | cons f fs ih =>
    intro cur i j hij hj hi
    cases cur with
    | none =>
      rw [chainStates_none] at hj ⊢
      rw [List.length_replicate] at hj
      exact getD_replicate_none _ j hj
    | some v =>
      cases i with
      | zero => simp [chainStates] at hi
      | succ i =>
        cases j with
        | zero => omega
        | succ j =>
          have hj' : j < (chainStates (and_then (some v) f) fs).length := by
            simpa [chainStates] using hj
          have hi' : (chainStates (and_then (some v) f) fs).getD i (some 0) = none := by
            simpa [chainStates] using hi
          simpa [chainStates] using ih (and_then (some v) f) i j (by omega) hj' hi'

/-- Once the state trace holds the empty optional at some index, the final
fold result is the empty optional. -/
theorem state_none_final_none : ∀ (fs : List ChainStep) (cur : Option Int) (i : Nat),
    (chainStates cur fs).getD i (some 0) = none →
    List.foldl and_then cur fs = none := by
  intro fs
  induction fs with
  | nil =>
    intro cur i hi
    cases i with
    | zero => simpa [chainStates] using hi
    | succ i => simp [chainStates] at hi
  | cons f fs ih =>
    intro cur i hi
    cases cur with
    | none => simpa [and_then] using foldl_and_then_none fs
    | some v =>
      cases i with
      | zero => simp [chainStates] at hi
      | succ i =>
        have hi' : (chainStates (and_then (some v) f) fs).getD i (some 0) = none := by
          simpa [chainStates] using hi
        simpa using ih (and_then (some v) f) i hi'

/-- Once the state trace holds the empty optional at some index, no step
at that index or later is invoked. -/
theorem invoked_after_none : ∀ (fs : List ChainStep) (cur : Option Int) (i : Nat),
    (chainStates cur fs).getD i (some 0) = none →
    ∀ j, i ≤ j → (invoked cur fs).getD j false = false := by
  intro fs
  induction fs with
  | nil =>
    intro cur i hi j hj
    simp [invoked]
  | cons f fs ih =>
    intro cur i hi j hj
    cases cur with
    | none =>
      rw [invoked_none]
      exact getD_replicate_false _ j
    | some v =>
      cases i with
      | zero => simp [chainStates] at hi
      | succ i =>
        cases j with
        | zero => omega
        | succ j =>
          have hi' : (chainStates (and_then (some v) f) fs).getD i (some 0) = none := by
            simpa [chainStates] using hi
          simpa [invoked, and_then] using ih (f v) i hi' j (by omega)

/-- The initial current optional is an entry of the state trace. -/
theorem mem_states_self : ∀ (gs : List ChainStep) (cur : Option Int),
    cur ∈ chainStates cur gs := by
  intro gs cur
  cases gs with
  | nil => simp [chainStates]
  | cons g gs => simp [chainStates]

/-- The value of the fold over a prefix of the steps is an entry of the
full state trace. -/
theorem foldl_mem_states : ∀ (fs : List ChainStep) (cur : Option Int) (gs : List ChainStep),
    List.foldl and_then cur fs ∈ chainStates cur (fs ++ gs) := by
  intro fs
  induction fs with
  | nil => intro cur gs; simpa using mem_states_self gs cur
  | cons f fs ih =>
    intro cur gs
    simpa [chainStates] using Or.inr (ih (and_then cur f) gs)

/-- The number of invocations is the number of steps or the index of the
first empty optional in the state trace, whichever is smaller. -/
theorem count_invocations_min : ∀ (fs : List ChainStep) (cur : Option Int),
    (invoked cur fs).count true
      = min fs.length ((chainStates cur fs).findIdx Option.isNone) := by
  intro fs
  induction fs with
  | nil =>
    intro cur
    simp [invoked, chainStates]
  | cons f fs ih =>
    intro cur
    cases cur with
    | none =>
      simp [invoked, chainStates, List.findIdx_cons, invoked_none, List.count_replicate]
    | some v =>
      have h := ih (f v)
      simp [invoked, chainStates, and_then, List.findIdx_cons, List.count_cons, h]
      omega

/-- The fold computes a result and invocation record related to the inputs
by the relational chain semantics. -/
theorem chainEval_run : ∀ (fs : List ChainStep) (cur : Option Int),
    ChainEval cur fs (List.foldl and_then cur fs) (invoked cur fs) := by
  intro fs
  induction fs with
  | nil => intro cur; exact ChainEval.nil cur
  | cons f fs ih =>
    intro cur
    cases cur with
    | none =>
      have h := ChainEval.absent f fs _ _ (ih none)
      simpa [invoked, and_then] using h
    | some v =>
      have h := ChainEval.present v f fs _ _ (ih (f v))
      simpa [invoked, and_then] using h

/-- Bridge from the C++ parity test to mathematical divisibility: `x % 2`
with truncated remainder is zero exactly when `2` divides `x`. -/
theorem tmod_two_eq_zero_iff (x : Int) : x.tmod 2 = 0 ↔ (2 : Int) ∣ x := by
  constructor
  · exact Int.dvd_of_tmod_eq_zero
  · exact Int.tmod_eq_zero_of_dvd

/-- On an even argument, `half` succeeds with the exact quotient. -/
theorem half_even (m : Int) : half (2 * m) = some m := by
  unfold half
  rw [if_pos (Int.tmod_eq_zero_of_dvd ⟨m, rfl⟩)]
  rw [Int.tdiv_eq_ediv_of_dvd ⟨m, rfl⟩, Int.mul_ediv_cancel_left m (by norm_num)]

/-- On an odd argument, `half` yields the empty optional. -/
theorem half_odd (n : Int) (h : ¬ (2 : Int) ∣ n) : half n = none := by
  unfold half
  rw [if_neg (fun h0 => h (Int.dvd_of_tmod_eq_zero h0))]

/-- Folding `k` copies of `half` from an engaged optional halves the value
`k` times when `2 ^ k` divides it, and yields the empty optional
otherwise. -/
theorem run_halves_pow : ∀ (k : Nat) (n : Int),
    List.foldl and_then (some n) (List.replicate k half)
      = if (2 ^ k : Int) ∣ n then some (n / 2 ^ k) else none := by
  intro k
  induction k with
  | zero => intro n; simp
  | succ k ih =>
    intro n
    rw [List.replicate_succ, List.foldl_cons]
    by_cases h2 : (2 : Int) ∣ n
    · obtain ⟨m, hm⟩ := h2
      subst hm
      have hstep : and_then (some (2 * m)) half = some m := by
        simpa [and_then] using half_even m
      rw [hstep, ih m]
      by_cases hk : (2 ^ k : Int) ∣ m
      · rw [if_pos hk, if_pos (by rw [pow_succ']; exact mul_dvd_mul_left 2 hk)]
        rw [pow_succ', Int.mul_ediv_mul_of_pos _ _ (by norm_num : (0 : Int) < 2)]
      · rw [if_neg hk, if_neg ?hnd]
        case hnd =>
          intro hd
          rw [pow_succ'] at hd
          exact hk ((mul_dvd_mul_iff_left (by norm_num : (2 : Int) ≠ 0)).mp hd)
    · have hstep : and_then (some n) half = none := by
        simpa [and_then] using half_odd n h2
      rw [hstep, foldl_and_then_none]
      rw [if_neg ?hnd2]
      case hnd2 =>
        intro hd
        exact h2 (dvd_trans (dvd_pow_self 2 k.succ_ne_zero) hd)

/-- C1: absorption — for every initial value and sequence of steps, if the
state trace of the chain holds Absent at some index (a step applied during
evaluation returned Absent), then the final result of the chain is Absent,
and every later state in the trace is still Absent: no later step changes
it back to Present. -/
theorem chain_absorption (init : Int) (steps : List ChainStep) (i j : Nat)
    (hij : i ≤ j) (hj : j < (chainStates (some init) steps).length)
    (hi : (chainStates (some init) steps).getD i (some 0) = none) :
    run_chain init steps = none
      ∧ (chainStates (some init) steps).getD j (some 0) = none :=
  ⟨state_none_final_none steps (some init) i hi,
   states_absorb steps (some init) i j hij hj hi⟩

/-- Witness for C1: in the sample chain of ten `half` steps from `20`, the
state after three steps is Absent, the final result is Absent and the state
after seven steps is still Absent. -/
theorem chain_absorption_witness :
    run_chain 20 (List.replicate 10 half) = none
      ∧ (chainStates (some 20) (List.replicate 10 half)).getD 7 (some 0) = none :=
  chain_absorption 20 (List.replicate 10 half) 3 7 (by decide) (by decide) (by decide)

/-- C2: short-circuit — for every initial value and sequence of steps, if
the current optional is Absent before step `i` (state trace entry `i` is
Absent), then no step at position `i` or later is invoked. -/
theorem chain_short_circuit (init : Int) (steps : List ChainStep) (i : Nat)
    (hi : (chainStates (some init) steps).getD i (some 0) = none) :
    ∀ j, i ≤ j → (invoked (some init) steps).getD j false = false :=
  invoked_after_none steps (some init) i hi

/-- Witness for C2: in the sample chain of ten `half` steps from `20` the
current optional is Absent before step 3, and step 8 is not invoked. -/
theorem chain_short_circuit_witness :
    (invoked (some 20) (List.replicate 10 half)).getD 8 false = false :=
  chain_short_circuit 20 (List.replicate 10 half) 3 (by decide) 8 (by decide)

/-- C3: concrete behaviour of `main` — starting from `20` with ten `half`
steps, the trace is Present 10 after step 1, Present 5 after step 2 and
Absent after step 3; only the first three steps are invoked (`half` is
called exactly 3 times) and the final result is Absent. -/
theorem main_trace_spec :
    chainStates (some 20) (List.replicate 10 half)
        = [some 20, some 10, some 5, none, none, none, none, none, none, none, none]
      ∧ invoked (some 20) (List.replicate 10 half)
        = [true, true, true, false, false, false, false, false, false, false]
      ∧ countInvocations (some 20) (List.replicate 10 half) = 3
      ∧ mainChain = none := by
  decide

/-- C4: definition of the sample transform — for every integer `x`, `half x`
is Present with the exact quotient `x / 2` when `x` is even, and `half x`
is Absent exactly when `x` is odd; this holds for negative `x` as well. -/
theorem half_spec (x : Int) :
    ((2 : Int) ∣ x → half x = some (x / 2))
      ∧ (half x = none ↔ ¬ (2 : Int) ∣ x) := by
  constructor
  · intro h
    obtain ⟨m, hm⟩ := h
    unfold half
    rw [if_pos (Int.tmod_eq_zero_of_dvd ⟨m, hm⟩), Int.tdiv_eq_ediv_of_dvd ⟨m, hm⟩]
  · constructor
    · intro h hd
      obtain ⟨m, hm⟩ := hd
      rw [hm, half_even] at h
      exact absurd h (by simp)
    · exact half_odd x

/-- Witness for C4: at the even negative input `-4` the transform succeeds
with the exact quotient. -/
theorem half_spec_witness : half (-4) = some ((-4 : Int) / 2) :=
  (half_spec (-4)).1 ⟨-2, by norm_num⟩

/-- C5: identity on success — for every initial value and sequence of
steps ending in `g`, if every state seen during evaluation is Present
(every invoked step returned Present), then the final result is exactly
the value produced by the last step `g` applied to the value threaded
through the earlier steps in left-to-right order. -/
theorem chain_success_identity (init : Int) (fs : List ChainStep) (g : ChainStep)
    (h : ∀ s ∈ chainStates (some init) (fs ++ [g]), s ≠ none) :
    ∃ v, run_chain init fs = some v ∧ run_chain init (fs ++ [g]) = g v := by
  have hmem := foldl_mem_states fs (some init) [g]
  have hne := h _ hmem
  obtain ⟨v, hv⟩ := Option.ne_none_iff_exists'.mp hne
  refine ⟨v, hv, ?_⟩
  show List.foldl and_then (some init) (fs ++ [g]) = g v
  rw [List.foldl_append, hv]
  rfl

/-- Witness for C5: from `4` through two `half` steps every state is
Present, and the final result is the output of the last step. -/
theorem chain_success_identity_witness :
    run_chain 4 ([half] ++ [half]) = some 1 := by
  obtain ⟨v, hv, hg⟩ := chain_success_identity 4 [half] half (by decide)
  have hv2 : v = 2 := by
    have h2 : run_chain 4 [half] = some 2 := by decide
    rw [h2] at hv
    injection hv with h'
    exact h'.symm
  rw [hg, hv2]
  decide

/-- C6: concrete success scenario — starting from `1024` with ten `half`
steps, every state is Present (each intermediate value even), all ten
steps are invoked, and the final result is Present 1. -/
theorem chain_1024_spec :
    chainStates (some 1024) (List.replicate 10 half)
        = [some 1024, some 512, some 256, some 128, some 64, some 32, some 16,
           some 8, some 4, some 2, some 1]
      ∧ invoked (some 1024) (List.replicate 10 half) = List.replicate 10 true
      ∧ run_chain 1024 (List.replicate 10 half) = some 1 := by
  decide

/-- C7: determinism — the relational chain semantics relates each current
optional and step list to at most one final result and one invocation
record, so two runs of the same chain from the same initial value produce
identical results and identical step invocation records. -/
theorem chain_deterministic (cur : Option Int) (steps : List ChainStep)
    (r₁ r₂ : Option Int) (b₁ b₂ : List Bool)
    (h₁ : ChainEval cur steps r₁ b₁) (h₂ : ChainEval cur steps r₂ b₂) :
    r₁ = r₂ ∧ b₁ = b₂ := by
  induction h₁ generalizing r₂ b₂ with
  | nil cur =>
    cases h₂ with
    | nil => exact ⟨rfl, rfl⟩
  | absent f fs r bs h ih =>
    cases h₂ with
    | absent f' fs' r' bs' h' =>
      obtain ⟨hr, hb⟩ := ih _ _ h'
      exact ⟨hr, by rw [hb]⟩
  | present v f fs r bs h ih =>
    cases h₂ with
    | present v' f' fs' r' bs' h' =>
      obtain ⟨hr, hb⟩ := ih _ _ h'
      exact ⟨hr, by rw [hb]⟩

/-- Witness for C7: two derivations of the one-step chain from `20` agree
on the result and on the invocation record. -/
theorem chain_deterministic_witness : half 20 = some 10 ∧ [true] = [true] := by
  have e : half 20 = some 10 := by decide
  have h₁ : ChainEval (some 20) [half] (half 20) [true] := chainEval_run [half] (some 20)
  have h₂ : ChainEval (some 20) [half] (some 10) [true] := by
    refine ChainEval.present 20 half [] (some 10) [] ?_
    rw [e]
    exact ChainEval.nil (some 10)
  exact chain_deterministic (some 20) [half] (half 20) (some 10) [true] [true] h₁ h₂

/-- C8: step totality — for every value of the C++ type `int`, evaluating
`half` performs no undefined operation: the checked evaluation succeeds and
agrees with the unchecked one, and any produced value is again a valid
`int`. -/
theorem half_total (x : Int) (h₁ : int32Min ≤ x) (h₂ : x ≤ int32Max) :
    halfChecked x = some (half x)
      ∧ ∀ y, half x = some y → int32Min ≤ y ∧ y ≤ int32Max := by
  have hrem : cppRem x 2 = some (x.tmod 2) := by
    unfold cppRem
    rw [if_neg (by norm_num : ¬ (2 : Int) = 0)]
    rw [if_neg (fun h => absurd h.2 (by norm_num))]
  have hdiv : cppDiv x 2 = some (x.tdiv 2) := by
    unfold cppDiv
    rw [if_neg (by norm_num : ¬ (2 : Int) = 0)]
    rw [if_neg (fun h => absurd h.2 (by norm_num))]
  constructor
  · unfold halfChecked half
    rw [hrem]
    show (if x.tmod 2 = 0 then (cppDiv x 2).map some else some none)
        = some (if x.tmod 2 = 0 then some (x.tdiv 2) else none)
    by_cases h : x.tmod 2 = 0
    · rw [if_pos h, if_pos h, hdiv]
      rfl
    · rw [if_neg h, if_neg h]
  · intro y hy
    unfold half at hy
    by_cases h : x.tmod 2 = 0
    · rw [if_pos h] at hy
      obtain ⟨m, hm⟩ := Int.dvd_of_tmod_eq_zero h
      have htd : x.tdiv 2 = m := by
        rw [Int.tdiv_eq_ediv_of_dvd ⟨m, hm⟩, hm, Int.mul_ediv_cancel_left m (by norm_num)]
      have hym : y = m := by
        injection hy with hy'
        rw [← hy', htd]
      simp only [int32Min, int32Max] at h₁ h₂ ⊢
      omega
    · rw [if_neg h] at hy
      exact absurd hy (by simp)

/-- Witness for C8 at the minimum representable `int`: the checked
evaluation succeeds and the produced value is in range. -/
theorem half_total_witness :
    halfChecked int32Min = some (half int32Min)
      ∧ (int32Min ≤ (-1073741824 : Int) ∧ (-1073741824 : Int) ≤ int32Max) :=
  ⟨(half_total int32Min (le_refl _) (by decide)).1,
   (half_total int32Min (le_refl _) (by decide)).2 (-1073741824) (by decide)⟩

/-- C9: bounded execution — for every initial value the chain performs
exactly `min n k` step invocations, where `n` is the number of steps and
`k` is the index in the state trace of the first Absent (which is the
1-based position of the first step returning Absent, and exceeds `n` when
no step fails); moreover the invocation record has exactly one entry per
step, so no step is ever invoked more than once. -/
theorem chain_invocation_bound (init : Int) (steps : List ChainStep) :
    countInvocations (some init) steps
        = min steps.length ((chainStates (some init) steps).findIdx Option.isNone)
      ∧ (invoked (some init) steps).length = steps.length :=
  ⟨count_invocations_min steps (some init), invoked_length steps (some init)⟩

/-- C10: generalisation of the ten-step chain — for every integer `n`, the
chain of ten `half` steps from `n` yields Present with the exact quotient
`n / 1024` when `1024` divides `n`, and Absent otherwise. -/
theorem chain_ten_halves (n : Int) :
    run_chain n (List.replicate 10 half)
      = if (1024 : Int) ∣ n then some (n / 1024) else none := by
  have h := run_halves_pow 10 n
  norm_num at h
  exact h
